import Mathlib

/-!
Verification of the `BinaryTree` class declared in `src/bst/binaryTree.h`.

The header ships only declarations (the repository is starter code), so every
operation body below is modelled from the specification's description of the
intended behaviour.  The node layout (`int element`, `left`, `right` children)
and the class fields (`root` pointer, cached `size`) come from the header.
-/

/-- The node/tree shape from `BinaryTree::Node` in `src/bst/binaryTree.h`:
a node holds one `int element` and two child links, each either absent
(`nullptr`, here `nil`) or another node. -/
inductive Node where
  | nil : Node
  | node (element : Int) (left right : Node) : Node
deriving Repr, DecidableEq

/-- In-order traversal of a tree: left subtree, node value, right subtree. -/
def Node.inorder : Node → List Int
  | .nil => []
  | .node x l r => l.inorder ++ x :: r.inorder

/-- Number of nodes in a tree. -/
def Node.count : Node → Nat
  | .nil => 0
  | .node _ l r => l.count + r.count + 1

/-- Modelled from the spec: `insert(n)` (implementation missing from the
header) — standard BST descent, left if `n` is smaller, right if larger,
no-op when an equal value is present, otherwise a new leaf at the terminal
absent-child position. -/
def Node.insert : Node → Int → Node
  | .nil, n => .node n .nil .nil
  | .node x l r, n =>
    if n < x then .node x (l.insert n) r
    else if x < n then .node x l (r.insert n)
    else .node x l r

/-- Modelled from the spec: `contains(n)` (implementation missing from the
header) — BST descent, true iff some node on the search path holds `n`. -/
def Node.contains : Node → Int → Bool
  | .nil, _ => false
  | .node x l r, n =>
    if n < x then l.contains n
    else if x < n then r.contains n
    else true

/-- Modelled from the spec: `find(n)` (implementation missing from the
header) — BST descent returning the node holding `n`, or the absent
indicator (`nullptr`, here `none`). -/
def Node.find : Node → Int → Option Node
  | .nil, _ => none
  | .node x l r, n =>
    if n < x then l.find n
    else if x < n then r.find n
    else some (.node x l r)

/-- Modelled from the spec: `min()` (implementation missing from the header)
— leftmost value along the chain of left children; 0 on the empty tree. -/
def Node.min : Node → Int
  | .nil => 0
  | .node x l _ =>
    match l with
    | .nil => x
    | .node y ll lr => Node.min (.node y ll lr)

/-- Modelled from the spec: `max()` (implementation missing from the header)
— rightmost value along the chain of right children; 0 on the empty tree. -/
def Node.max : Node → Int
  | .nil => 0
  | .node x _ r =>
    match r with
    | .nil => x
    | .node y rl rr => Node.max (.node y rl rr)

/-- Modelled from the spec: `remove(n)` (implementation missing from the
header) — no-op when `n` is absent; otherwise the classic three-case rule:
no children → detach, one child → promote the sole child, two children →
copy the in-order successor (minimum of the right subtree) into the node and
recursively remove that successor from the right subtree. -/
def Node.remove : Node → Int → Node
  | .nil, _ => .nil
  | .node x l r, n =>
    if n < x then .node x (l.remove n) r
    else if x < n then .node x l (r.remove n)
    else
      match l, r with
      | .nil, _ => r
      | .node y ll lr, .nil => .node y ll lr
      | .node y ll lr, .node z rl rr =>
        .node (Node.min (.node z rl rr)) (.node y ll lr)
          (Node.remove (.node z rl rr) (Node.min (.node z rl rr)))

/-- `ForallT p t`: every value stored in `t` satisfies `p`. -/
inductive ForallT (p : Int → Prop) : Node → Prop where
  | nil : ForallT p .nil
  | node {x l r} : p x → ForallT p l → ForallT p r → ForallT p (.node x l r)

/-- The BST ordering invariant from the spec: at every node all values of the
left subtree are strictly smaller and all values of the right subtree
strictly larger than the node's value. -/
inductive BST : Node → Prop where
  | nil : BST .nil
  | node {x l r} :
      ForallT (· < x) l → ForallT (x < ·) r → BST l → BST r →
      BST (.node x l r)

theorem forallT_iff {p : Int → Prop} {t : Node} :
    ForallT p t ↔ ∀ y ∈ t.inorder, p y := by
  induction t with
  | nil =>
    constructor
    · intro _ y hy; simp [Node.inorder] at hy
    · intro _; exact ForallT.nil
  | node x l r ihl ihr =>
    constructor
    · intro h
      cases h with
      | node hx hl hr =>
        intro y hy
        simp only [Node.inorder, List.mem_append, List.mem_cons] at hy
        rcases hy with hy | rfl | hy
        · exact ihl.mp hl y hy
        · exact hx
        · exact ihr.mp hr y hy
    · intro h
      exact ForallT.node (h x (by simp [Node.inorder]))
        (ihl.mpr fun y hy => h y (by simp [Node.inorder, hy]))
        (ihr.mpr fun y hy => h y (by simp [Node.inorder, hy]))

theorem Node.insert_of_contains {t : Node} {n : Int} (h : t.contains n = true) :
    t.insert n = t := by
  induction t with
  | nil => simp [Node.contains] at h
  | node x l r ihl ihr =>
    by_cases h1 : n < x
    · simp only [Node.contains, if_pos h1] at h
      simp [Node.insert, h1, ihl h]
    · by_cases h2 : x < n
      · simp only [Node.contains, if_neg h1, if_pos h2] at h
        simp [Node.insert, h1, h2, ihr h]
      · simp [Node.insert, h1, h2]

theorem Node.count_insert {t : Node} {n : Int} (h : t.contains n = false) :
    (t.insert n).count = t.count + 1 := by
  induction t with
  | nil => simp [Node.insert, Node.count]
  | node x l r ihl ihr =>
    by_cases h1 : n < x
    · simp only [Node.contains, if_pos h1] at h
      simp only [Node.insert, if_pos h1, Node.count, ihl h]
      omega
    · by_cases h2 : x < n
      · simp only [Node.contains, if_neg h1, if_pos h2] at h
        simp only [Node.insert, if_neg h1, if_pos h2, Node.count, ihr h]
        omega
      · simp [Node.contains, h1, h2] at h

theorem Node.mem_inorder_insert {t : Node} {n y : Int} :
    y ∈ (t.insert n).inorder ↔ y ∈ t.inorder ∨ y = n := by
  induction t with
  | nil => simp [Node.insert, Node.inorder]
  | node x l r ihl ihr =>
    by_cases h1 : n < x
    · simp only [Node.insert, if_pos h1, Node.inorder, List.mem_append,
        List.mem_cons, ihl]
      tauto
    · by_cases h2 : x < n
      · simp only [Node.insert, if_neg h1, if_pos h2, Node.inorder,
          List.mem_append, List.mem_cons, ihr]
        tauto
      · have hx : n = x := le_antisymm (not_lt.mp h2) (not_lt.mp h1)
        subst hx
        simp only [Node.insert, lt_irrefl, if_neg (lt_irrefl n), Node.inorder,
          List.mem_append, List.mem_cons]
        tauto

theorem forallT_insert {p : Int → Prop} {t : Node} {n : Int}
    (h : ForallT p t) (hn : p n) : ForallT p (t.insert n) := by
  rw [forallT_iff] at h ⊢
  intro y hy
  rcases Node.mem_inorder_insert.mp hy with hy | rfl
  · exact h y hy
  · exact hn

theorem BST.insert {t : Node} (h : BST t) (n : Int) : BST (t.insert n) := by
  induction h with
  | nil =>
    simp only [Node.insert]
    exact BST.node ForallT.nil ForallT.nil BST.nil BST.nil
  | @node x l r hfl hfr hl hr ihl ihr =>
    by_cases h1 : n < x
    · simp only [Node.insert, if_pos h1]
      exact BST.node (forallT_insert hfl h1) hfr ihl hr
    · by_cases h2 : x < n
      · simp only [Node.insert, if_neg h1, if_pos h2]
        exact BST.node hfl (forallT_insert hfr h2) hl ihr
      · simp only [Node.insert, if_neg h1, if_neg h2]
        exact BST.node hfl hfr hl hr

theorem Node.contains_insert_self (t : Node) (n : Int) :
    (t.insert n).contains n = true := by
  induction t with
  | nil => simp [Node.insert, Node.contains]
  | node x l r ihl ihr =>
    by_cases h1 : n < x
    · simp [Node.insert, h1, Node.contains, ihl]
    · by_cases h2 : x < n
      · simp [Node.insert, h1, h2, Node.contains, ihr]
      · simp [Node.insert, h1, h2, Node.contains]

theorem bst_iff_sorted {t : Node} : BST t ↔ t.inorder.Sorted (· < ·) := by
  induction t with
  | nil =>
    constructor
    · intro _; simp [Node.inorder]
    · intro _; exact BST.nil
  | node x l r ihl ihr =>
    constructor
    · intro h
      cases h with
      | node hfl hfr hl hr =>
        simp only [Node.inorder, List.Sorted, List.pairwise_append,
          List.pairwise_cons]
        refine ⟨ihl.mp hl, ⟨forallT_iff.mp hfr, ihr.mp hr⟩, ?_⟩
        intro a ha b hb
        rcases List.mem_cons.mp hb with rfl | hb
        · exact forallT_iff.mp hfl a ha
        · exact lt_trans (forallT_iff.mp hfl a ha) (forallT_iff.mp hfr b hb)
    · intro h
      simp only [Node.inorder, List.Sorted, List.pairwise_append,
        List.pairwise_cons] at h
      obtain ⟨h1, ⟨hxr, hr⟩, h3⟩ := h
      exact BST.node
        (forallT_iff.mpr fun y hy => h3 y hy x (List.mem_cons_self _ _))
        (forallT_iff.mpr hxr) (ihl.mpr h1) (ihr.mpr hr)

theorem Node.contains_iff_mem {t : Node} {n : Int} (h : BST t) :
    t.contains n = true ↔ n ∈ t.inorder := by
  induction t with
  | nil => simp [Node.contains, Node.inorder]
  | node x l r ihl ihr =>
    cases h with
    | node hfl hfr hl hr =>
      by_cases h1 : n < x
      · simp only [Node.contains, if_pos h1, Node.inorder, List.mem_append,
          List.mem_cons]
        rw [ihl hl]
        constructor
        · exact fun h => Or.inl h
        · rintro (h | rfl | h)
          · exact h
          · exact absurd h1 (lt_irrefl _)
          · exact absurd h1 (asymm (forallT_iff.mp hfr n h))
      · by_cases h2 : x < n
        · simp only [Node.contains, if_neg h1, if_pos h2, Node.inorder,
            List.mem_append, List.mem_cons]
          rw [ihr hr]
          constructor
          · exact fun h => Or.inr (Or.inr h)
          · rintro (h | rfl | h)
            · exact absurd h2 (asymm (forallT_iff.mp hfl n h))
            · exact absurd h2 (lt_irrefl _)
            · exact h
        · have hx : n = x := le_antisymm (not_lt.mp h2) (not_lt.mp h1)
          subst hx
          simp [Node.contains, Node.inorder]

theorem Node.min_cons {t : Node} (h : t ≠ .nil) :
    ∃ tl, t.inorder = t.min :: tl := by
  induction t with
  | nil => exact absurd rfl h
  | node x l r ihl _ =>
    cases l with
    | nil => exact ⟨r.inorder, by simp [Node.inorder, Node.min]⟩
    | node y ll lr =>
      obtain ⟨tl, htl⟩ := ihl (by simp)
      refine ⟨tl ++ x :: r.inorder, ?_⟩
      have h1 : (Node.node x (Node.node y ll lr) r).inorder
          = (Node.node y ll lr).inorder ++ x :: r.inorder := rfl
      have h2 : (Node.node x (Node.node y ll lr) r).min
          = (Node.node y ll lr).min := rfl
      rw [h1, htl, h2, List.cons_append]

theorem Node.max_concat {t : Node} (h : t ≠ .nil) :
    ∃ init, t.inorder = init ++ [t.max] := by
  induction t with
  | nil => exact absurd rfl h
  | node x l r _ ihr =>
    cases r with
    | nil => exact ⟨l.inorder, by simp [Node.inorder, Node.max]⟩
    | node y rl rr =>
      obtain ⟨init, hinit⟩ := ihr (by simp)
      refine ⟨l.inorder ++ x :: init, ?_⟩
      have h1 : (Node.node x l (Node.node y rl rr)).inorder
          = l.inorder ++ x :: (Node.node y rl rr).inorder := rfl
      have h2 : (Node.node x l (Node.node y rl rr)).max
          = (Node.node y rl rr).max := rfl
      rw [h1, hinit, h2]
      simp

theorem Node.min_spec {t : Node} (hb : BST t) (hne : t ≠ .nil) :
    t.min ∈ t.inorder ∧ ∀ y ∈ t.inorder, t.min ≤ y := by
  obtain ⟨tl, htl⟩ := Node.min_cons hne
  have hs := bst_iff_sorted.mp hb
  rw [htl] at hs ⊢
  refine ⟨List.mem_cons_self _ _, ?_⟩
  intro y hy
  rcases List.mem_cons.mp hy with rfl | hy
  · exact le_refl _
  · exact le_of_lt ((List.pairwise_cons.mp hs).1 y hy)

theorem Node.max_spec {t : Node} (hb : BST t) (hne : t ≠ .nil) :
    t.max ∈ t.inorder ∧ ∀ y ∈ t.inorder, y ≤ t.max := by
  obtain ⟨init, hinit⟩ := Node.max_concat hne
  have hs := bst_iff_sorted.mp hb
  rw [hinit] at hs ⊢
  simp only [List.Sorted, List.pairwise_append] at hs
  refine ⟨by simp, ?_⟩
  intro y hy
  rcases List.mem_append.mp hy with hy | hy
  · exact le_of_lt (hs.2.2 y hy _ (List.mem_singleton_self _))
  · rcases List.mem_singleton.mp hy with rfl
    exact le_refl _


theorem Node.remove_lt {x : Int} {l r : Node} {n : Int} (h1 : n < x) :
    Node.remove (.node x l r) n = .node x (l.remove n) r := by
  rw [Node.remove.eq_def]
  simp only [if_pos h1]

theorem Node.remove_gt {x : Int} {l r : Node} {n : Int} (h1 : ¬n < x)
    (h2 : x < n) : Node.remove (.node x l r) n = .node x l (r.remove n) := by
  rw [Node.remove.eq_def]
  simp only [if_neg h1, if_pos h2]

theorem Node.remove_left_nil {x : Int} {r : Node} {n : Int} (h1 : ¬n < x)
    (h2 : ¬x < n) : Node.remove (.node x .nil r) n = r := by
  rw [Node.remove.eq_def]
  simp only [if_neg h1, if_neg h2]

theorem Node.remove_right_nil {x y : Int} {ll lr : Node} {n : Int}
    (h1 : ¬n < x) (h2 : ¬x < n) :
    Node.remove (.node x (.node y ll lr) .nil) n = .node y ll lr := by
  rw [Node.remove.eq_def]
  simp only [if_neg h1, if_neg h2]

theorem Node.remove_two {x y z : Int} {ll lr rl rr : Node} {n : Int}
    (h1 : ¬n < x) (h2 : ¬x < n) :
    Node.remove (.node x (.node y ll lr) (.node z rl rr)) n
      = .node (Node.min (.node z rl rr)) (.node y ll lr)
          (Node.remove (.node z rl rr) (Node.min (.node z rl rr))) := by
  rw [Node.remove.eq_def]
  simp only [if_neg h1, if_neg h2]

theorem Node.remove_of_not_contains {t : Node} {n : Int}
    (h : t.contains n = false) : t.remove n = t := by
  induction t with
  | nil => rfl
  | node x l r ihl ihr =>
    by_cases h1 : n < x
    · simp only [Node.contains, if_pos h1] at h
      rw [Node.remove_lt h1, ihl h]
    · by_cases h2 : x < n
      · simp only [Node.contains, if_neg h1, if_pos h2] at h
        rw [Node.remove_gt h1 h2, ihr h]
      · simp [Node.contains, h1, h2] at h

theorem Node.count_eq_length (t : Node) : t.count = t.inorder.length := by
  induction t with
  | nil => rfl
  | node x l r ihl ihr =>
    simp [Node.count, Node.inorder, ihl, ihr]
    omega

theorem Node.inorder_remove {t : Node} (hb : BST t) :
    ∀ n : Int, (t.remove n).inorder = t.inorder.erase n := by
  induction hb with
  | nil => intro n; rfl
  | @node x l r hfl hfr hl hr ihl ihr =>
    intro n
    by_cases h1 : n < x
    · rw [Node.remove_lt h1]
      simp only [Node.inorder]
      rw [ihl n]
      by_cases hm : n ∈ l.inorder
      · rw [List.erase_append_left _ hm]
      · have hnot : n ∉ l.inorder ++ x :: r.inorder := by
          simp only [List.mem_append, List.mem_cons, not_or]
          exact ⟨hm, ne_of_lt h1,
            fun hc => absurd h1 (asymm (forallT_iff.mp hfr n hc))⟩
        rw [List.erase_of_not_mem hm, List.erase_of_not_mem hnot]
    · by_cases h2 : x < n
      · rw [Node.remove_gt h1 h2]
        simp only [Node.inorder]
        rw [ihr n]
        have hnl : n ∉ l.inorder :=
          fun hc => absurd h2 (asymm (forallT_iff.mp hfl n hc))
        rw [List.erase_append_right _ hnl,
          List.erase_cons_tail (by simpa using ne_of_lt h2)]
      · have hx : n = x := le_antisymm (not_lt.mp h2) (not_lt.mp h1)
        subst hx
        have hnl : n ∉ l.inorder :=
          fun hc => absurd (forallT_iff.mp hfl n hc) (lt_irrefl n)
        cases l with
        | nil =>
          rw [Node.remove_left_nil h1 h2]
          simp only [Node.inorder, List.nil_append, List.erase_cons_head]
        | node y ll lr =>
          cases r with
          | nil =>
            rw [Node.remove_right_nil h1 h2]
            rw [show (Node.node n (Node.node y ll lr) Node.nil).inorder
                = (Node.node y ll lr).inorder ++ [n] from rfl]
            rw [List.erase_append_right _ hnl, List.erase_cons_head,
              List.append_nil]
          | node z rl rr =>
            rw [Node.remove_two h1 h2]
            obtain ⟨tl, htl⟩ := Node.min_cons (t := Node.node z rl rr) (by simp)
            rw [show (Node.node n (Node.node y ll lr)
                  (Node.node z rl rr)).inorder
                = (Node.node y ll lr).inorder
                    ++ n :: (Node.node z rl rr).inorder from rfl]
            rw [show (Node.node ((Node.node z rl rr).min) (Node.node y ll lr)
                  ((Node.node z rl rr).remove ((Node.node z rl rr).min))).inorder
                = (Node.node y ll lr).inorder ++ ((Node.node z rl rr).min)
                    :: ((Node.node z rl rr).remove
                      ((Node.node z rl rr).min)).inorder from rfl]
            rw [ihr ((Node.node z rl rr).min), htl, List.erase_cons_head,
              List.erase_append_right _ hnl, List.erase_cons_head]

theorem BST.remove {t : Node} (hb : BST t) (n : Int) : BST (t.remove n) := by
  rw [bst_iff_sorted, Node.inorder_remove hb n]
  exact List.Pairwise.sublist (List.erase_sublist n t.inorder)
    (bst_iff_sorted.mp hb)

theorem Node.count_remove {t : Node} {n : Int} (hb : BST t)
    (h : t.contains n = true) : (t.remove n).count + 1 = t.count := by
  have hm : n ∈ t.inorder := (Node.contains_iff_mem hb).mp h
  rw [Node.count_eq_length, Node.count_eq_length, Node.inorder_remove hb n,
    List.length_erase_of_mem hm]
  have : 0 < t.inorder.length := List.length_pos.mpr (by
    intro hnil; rw [hnil] at hm; exact List.not_mem_nil n hm)
  omega

theorem Node.contains_remove_self {t : Node} (hb : BST t) (n : Int) :
    (t.remove n).contains n = false := by
  rw [← Bool.not_eq_true, Node.contains_iff_mem (hb.remove n),
    Node.inorder_remove hb n]
  have hnd : t.inorder.Nodup := (bst_iff_sorted.mp hb).nodup
  exact hnd.not_mem_erase

theorem Node.contains_eq_find_isSome (t : Node) (n : Int) :
    t.contains n = (t.find n).isSome := by
  induction t with
  | nil => rfl
  | node x l r ihl ihr =>
    by_cases h1 : n < x
    · simp only [Node.contains, Node.find, if_pos h1, ihl]
    · by_cases h2 : x < n
      · simp only [Node.contains, Node.find, if_neg h1, if_pos h2, ihr]
      · simp only [Node.contains, Node.find, if_neg h1, if_neg h2,
          Option.isSome_some]

theorem Node.find_eq_node {t : Node} {n : Int} {u : Node}
    (h : t.find n = some u) : ∃ l r, u = Node.node n l r := by
  induction t with
  | nil => simp [Node.find] at h
  | node x l r ihl ihr =>
    by_cases h1 : n < x
    · rw [Node.find, if_pos h1] at h
      exact ihl h
    · by_cases h2 : x < n
      · rw [Node.find, if_neg h1, if_pos h2] at h
        exact ihr h
      · have hx : n = x := le_antisymm (not_lt.mp h2) (not_lt.mp h1)
        subst hx
        rw [Node.find, if_neg h1, if_neg h2, Option.some_inj] at h
        exact ⟨l, r, h.symm⟩

theorem Node.count_eq_zero {t : Node} : t.count = 0 ↔ t = .nil := by
  cases t <;> simp [Node.count]

/-- The `BinaryTree` class from the header: a `root` node (absent when the
tree is empty) and the cached node count `size`. -/
structure BinaryTree where
  root : Node
  size : Nat
deriving Repr, DecidableEq

/-- The default constructor: an empty tree (`root` absent, count 0). -/
def BinaryTree.mk0 : BinaryTree := ⟨.nil, 0⟩

/-- Modelled from the spec: `insert(n)` (implementation missing from the
header) — duplicates are rejected silently with the count unchanged,
otherwise the value is added and the count increments by 1. -/
def BinaryTree.insert (bt : BinaryTree) (n : Int) : BinaryTree :=
  ⟨bt.root.insert n, if bt.root.contains n then bt.size else bt.size + 1⟩

/-- Modelled from the spec: `remove(n)` (implementation missing from the
header) — a no-op when `n` is absent, otherwise the node is excised and the
count decrements by 1. -/
def BinaryTree.remove (bt : BinaryTree) (n : Int) : BinaryTree :=
  ⟨bt.root.remove n, if bt.root.contains n then bt.size - 1 else bt.size⟩

/-- Modelled from the spec: `clear()` (implementation missing from the
header) — deallocates every node and resets to the empty state. -/
def BinaryTree.clear (_ : BinaryTree) : BinaryTree := ⟨.nil, 0⟩

/-- Modelled from the spec: the copy constructor (implementation missing
from the header) — a deep structural clone, hence the same tree value. -/
def BinaryTree.copy (bt : BinaryTree) : BinaryTree := ⟨bt.root, bt.size⟩

/-- Modelled from the spec: copy assignment (implementation missing from the
header) — releases the target's nodes, then deep-clones the source; the
result is the new value of the target. -/
def BinaryTree.copyAssign (_ src : BinaryTree) : BinaryTree := src.copy

/-- Modelled from the spec: the move constructor (implementation missing
from the header) — transfers the root and count to the new tree and resets
the source to the empty state; returns (new tree, moved-from source). -/
def BinaryTree.move (bt : BinaryTree) : BinaryTree × BinaryTree :=
  (⟨bt.root, bt.size⟩, ⟨.nil, 0⟩)

/-- Modelled from the spec: move assignment (implementation missing from the
header) — releases the target's nodes, adopts the source's root and count,
resets the source; returns (new target, moved-from source). -/
def BinaryTree.moveAssign (_ src : BinaryTree) : BinaryTree × BinaryTree :=
  (⟨src.root, src.size⟩, ⟨.nil, 0⟩)

/-- Modelled from the spec: `min()` on the tree — 0 when empty. -/
def BinaryTree.min (bt : BinaryTree) : Int := bt.root.min

/-- Modelled from the spec: `max()` on the tree — 0 when empty. -/
def BinaryTree.max (bt : BinaryTree) : Int := bt.root.max

/-- Modelled from the spec: `root()` — the value at the root, 0 when
empty. -/
def BinaryTree.rootValue (bt : BinaryTree) : Int :=
  match bt.root with
  | .nil => 0
  | .node x _ _ => x

/-- Modelled from the spec: `contains(n)` on the tree. -/
def BinaryTree.contains (bt : BinaryTree) (n : Int) : Bool :=
  bt.root.contains n

/-- Modelled from the spec: `find(n)` on the tree. -/
def BinaryTree.find (bt : BinaryTree) (n : Int) : Option Node :=
  bt.root.find n

/-- Modelled from the spec: `empty()` — true iff the count is 0. -/
def BinaryTree.empty (bt : BinaryTree) : Bool := bt.size == 0

/-- The tree states reachable from the default-constructed empty tree by the
public operations: insert, remove, clear, copy, move and both assignment
operators (for the binary operations, any source tree that is itself
reachable). -/
inductive Reachable : BinaryTree → Prop where
  | mk0 : Reachable BinaryTree.mk0
  | insert {bt : BinaryTree} {n : Int} :
      Reachable bt → Reachable (bt.insert n)
  | remove {bt : BinaryTree} {n : Int} :
      Reachable bt → Reachable (bt.remove n)
  | clear {bt : BinaryTree} : Reachable bt → Reachable bt.clear
  | copy {bt : BinaryTree} : Reachable bt → Reachable bt.copy
  | copyAssign {tgt src : BinaryTree} :
      Reachable src → Reachable (BinaryTree.copyAssign tgt src)
  | moveTarget {bt : BinaryTree} : Reachable bt → Reachable bt.move.1
  | moveSource {bt : BinaryTree} : Reachable bt → Reachable bt.move.2
  | moveAssignTarget {tgt src : BinaryTree} :
      Reachable src → Reachable (BinaryTree.moveAssign tgt src).1
  | moveAssignSource {tgt src : BinaryTree} :
      Reachable src → Reachable (BinaryTree.moveAssign tgt src).2

/-- The representation invariant of the class: the root is a BST and the
cached count equals the number of live nodes. -/
def TreeInv (bt : BinaryTree) : Prop := BST bt.root ∧ bt.size = bt.root.count

theorem treeInv_insert {bt : BinaryTree} (h : TreeInv bt) (n : Int) :
    TreeInv (bt.insert n) := by
  refine ⟨h.1.insert n, ?_⟩
  by_cases hc : bt.root.contains n = true
  · simp [BinaryTree.insert, hc, Node.insert_of_contains hc, h.2]
  · have hc' : bt.root.contains n = false := by
      revert hc; cases bt.root.contains n <;> simp
    simp [BinaryTree.insert, hc', Node.count_insert hc', h.2]

theorem treeInv_remove {bt : BinaryTree} (h : TreeInv bt) (n : Int) :
    TreeInv (bt.remove n) := by
  refine ⟨h.1.remove n, ?_⟩
  by_cases hc : bt.root.contains n = true
  · have := Node.count_remove h.1 hc
    simp only [BinaryTree.remove, hc, if_true, h.2]
    omega
  · have hc' : bt.root.contains n = false := by
      revert hc; cases bt.root.contains n <;> simp
    simp [BinaryTree.remove, hc', Node.remove_of_not_contains hc', h.2]

theorem reachable_treeInv {bt : BinaryTree} (h : Reachable bt) : TreeInv bt := by
  induction h with
  | mk0 => exact ⟨BST.nil, rfl⟩
  | insert _ ih => exact treeInv_insert ih _
  | remove _ ih => exact treeInv_remove ih _
  | clear _ _ => exact ⟨BST.nil, rfl⟩
  | copy _ ih => exact ih
  | copyAssign _ ih => exact ih
  | moveTarget _ ih => exact ih
  | moveSource _ _ => exact ⟨BST.nil, rfl⟩
  | moveAssignTarget _ ih => exact ih
  | moveAssignSource _ _ => exact ⟨BST.nil, rfl⟩

/-- A history of mutating requests against one tree: insert or remove. -/
inductive UOp where
  | ins (n : Int) : UOp
  | rem (n : Int) : UOp

/-- Run a history of operations on a tree. -/
def runOps : BinaryTree → List UOp → BinaryTree
  | bt, [] => bt
  | bt, .ins n :: ops => runOps (bt.insert n) ops
  | bt, .rem n :: ops => runOps (bt.remove n) ops

/-- Count the successful operations of a history: an insert succeeds when
the value is absent (a new node is created), a remove succeeds when the
value is present (a node is destroyed).  Returns
(successful inserts, successful removes). -/
def opCounts : BinaryTree → List UOp → Nat × Nat
  | _, [] => (0, 0)
  | bt, .ins n :: ops =>
    let p := opCounts (bt.insert n) ops
    if bt.root.contains n then p else (p.1 + 1, p.2)
  | bt, .rem n :: ops =>
    let p := opCounts (bt.remove n) ops
    if bt.root.contains n then (p.1, p.2 + 1) else p

theorem treeInv_size_pos {bt : BinaryTree} (h : TreeInv bt) {n : Int}
    (hc : bt.root.contains n = true) : 1 ≤ bt.size := by
  have hm : n ∈ bt.root.inorder := (Node.contains_iff_mem h.1).mp hc
  have : bt.root.inorder ≠ [] := by
    intro hnil; rw [hnil] at hm; exact List.not_mem_nil n hm
  have := List.length_pos.mpr this
  rw [h.2, Node.count_eq_length]
  omega

theorem runOps_size {bt : BinaryTree} (h : TreeInv bt) :
    ∀ ops : List UOp,
      (runOps bt ops).size + (opCounts bt ops).2
        = bt.size + (opCounts bt ops).1 := by
  intro ops
  induction ops generalizing bt with
  | nil => simp [runOps, opCounts]
  | cons op ops ih =>
    cases op with
    | ins n =>
      have ih' := ih (treeInv_insert h n)
      by_cases hc : bt.root.contains n = true
      · simp only [runOps, opCounts, hc, if_true]
        have hsz : (bt.insert n).size = bt.size := by
          simp [BinaryTree.insert, hc]
        omega
      · have hc' : bt.root.contains n = false := by
          revert hc; cases bt.root.contains n <;> simp
        simp only [runOps, opCounts, hc', Bool.false_eq_true, if_false]
        have hsz : (bt.insert n).size = bt.size + 1 := by
          simp [BinaryTree.insert, hc']
        omega
    | rem n =>
      have ih' := ih (treeInv_remove h n)
      by_cases hc : bt.root.contains n = true
      · have hpos := treeInv_size_pos h hc
        simp only [runOps, opCounts, hc, if_true]
        have hsz : (bt.remove n).size = bt.size - 1 := by
          simp [BinaryTree.remove, hc]
        omega
      · have hc' : bt.root.contains n = false := by
          revert hc; cases bt.root.contains n <;> simp
        simp only [runOps, opCounts, hc', Bool.false_eq_true, if_false]
        have hsz : (bt.remove n).size = bt.size := by
          simp [BinaryTree.remove, hc']
        omega

/-- A heap node together with the address it lives at: used to state the
no-sharing property of the deep copy.  Stripping the addresses recovers the
plain tree. -/
inductive ANode where
  | nil : ANode
  | node (addr : Nat) (element : Int) (left right : ANode) : ANode

/-- The addresses of all nodes of an address-annotated tree. -/
def ANode.addrs : ANode → List Nat
  | .nil => []
  | .node a _ l r => a :: (l.addrs ++ r.addrs)

/-- Forget the addresses. -/
def ANode.strip : ANode → Node
  | .nil => .nil
  | .node _ x l r => .node x l.strip r.strip

/-- Modelled from the spec: the deep copy performed by the copy constructor
and copy assignment (implementation missing from the header) — every node of
the source is duplicated, same value and same shape, into a freshly
allocated node; the allocator counter `k` only hands out addresses that were
never used before. -/
def ANode.clone : ANode → Nat → ANode × Nat
  | .nil, k => (.nil, k)
  | .node _ x l r, k =>
    let pl := l.clone (k + 1)
    let pr := r.clone pl.2
    (.node k x pl.1 pr.1, pr.2)

theorem ANode.clone_strip (t : ANode) (k : Nat) :
    ((t.clone k).1).strip = t.strip := by
  induction t generalizing k with
  | nil => rfl
  | node a x l r ihl ihr => simp [ANode.clone, ANode.strip, ihl, ihr]

theorem ANode.clone_counter_le (t : ANode) (k : Nat) : k ≤ (t.clone k).2 := by
  induction t generalizing k with
  | nil => exact le_refl k
  | node a x l r ihl ihr =>
    simp only [ANode.clone]
    calc k ≤ k + 1 := Nat.le_succ k
      _ ≤ (l.clone (k + 1)).2 := ihl (k + 1)
      _ ≤ (r.clone (l.clone (k + 1)).2).2 := ihr _

theorem ANode.clone_addrs_ge (t : ANode) (k : Nat) :
    ∀ a ∈ (t.clone k).1.addrs, k ≤ a := by
  induction t generalizing k with
  | nil => intro a ha; simp [ANode.clone, ANode.addrs] at ha
  | node a0 x l r ihl ihr =>
    intro a ha
    simp only [ANode.clone, ANode.addrs, List.mem_cons, List.mem_append] at ha
    rcases ha with rfl | ha | ha
    · exact le_refl a
    · exact le_trans (Nat.le_succ k) (ihl (k + 1) a ha)
    · exact le_trans (Nat.le_succ k)
        (le_trans (ANode.clone_counter_le l (k + 1)) (ihr _ a ha))

theorem ANode.clone_disjoint {t : ANode} {k : Nat}
    (h : ∀ a ∈ t.addrs, a < k) :
    List.Disjoint ((t.clone k).1.addrs) t.addrs := by
  intro a h1 h2
  exact absurd (ANode.clone_addrs_ge t k a h1) (not_le.mpr (h a h2))

/-- C1: every tree state reachable from the empty tree by any sequence of
the public operations (insert, remove, clear, copy, move, assignment)
satisfies the BST ordering invariant — at every node all left-subtree values
are strictly smaller and all right-subtree values strictly larger, no value
stored twice — equivalently, the in-order traversal is strictly increasing
with no duplicates. -/
theorem spec_C1 (bt : BinaryTree) (h : Reachable bt) :
    BST bt.root ∧ bt.root.inorder.Sorted (· < ·) ∧ bt.root.inorder.Nodup := by
  have hb := (reachable_treeInv h).1
  exact ⟨hb, bst_iff_sorted.mp hb, (bst_iff_sorted.mp hb).nodup⟩

/-- Witness for C1 at the concrete state reached by inserting 5 then 3. -/
theorem spec_C1_witness :
    BST ((BinaryTree.mk0.insert 5).insert 3).root ∧
    ((BinaryTree.mk0.insert 5).insert 3).root.inorder.Sorted (· < ·) ∧
    ((BinaryTree.mk0.insert 5).insert 3).root.inorder.Nodup :=
  spec_C1 ((BinaryTree.mk0.insert 5).insert 3)
    (Reachable.insert (Reachable.insert Reachable.mk0))

/-- C2: on every reachable state the cached count equals the number of live
nodes, the root is absent iff the count is 0, and `empty()` is true iff the
count is 0; and over a whole history of insert/remove requests starting from
the empty tree, `size()` equals the number of successful inserts minus the
number of successful removes. -/
theorem spec_C2 :
    (∀ bt : BinaryTree, Reachable bt →
      bt.size = bt.root.count ∧ (bt.root = .nil ↔ bt.size = 0) ∧
      (bt.empty = true ↔ bt.size = 0)) ∧
    (∀ ops : List UOp,
      (runOps BinaryTree.mk0 ops).size + (opCounts BinaryTree.mk0 ops).2
        = (opCounts BinaryTree.mk0 ops).1) := by
  constructor
  · intro bt h
    have hi := reachable_treeInv h
    refine ⟨hi.2, ?_, ?_⟩
    · rw [hi.2]
      constructor
      · intro hr; rw [hr]; rfl
      · intro hc; exact Node.count_eq_zero.mp hc
    · simp [BinaryTree.empty]
  · intro ops
    have h0 : TreeInv BinaryTree.mk0 := ⟨BST.nil, rfl⟩
    have := runOps_size h0 ops
    simpa [BinaryTree.mk0] using this

/-- Witness for C2: a reachable state, and the history insert 7, insert 7
(duplicate), remove 7. -/
theorem spec_C2_witness :
    (BinaryTree.mk0.insert 7).size = (BinaryTree.mk0.insert 7).root.count ∧
    (runOps BinaryTree.mk0 [UOp.ins 7, UOp.ins 7, UOp.rem 7]).size
        + (opCounts BinaryTree.mk0 [UOp.ins 7, UOp.ins 7, UOp.rem 7]).2
      = (opCounts BinaryTree.mk0 [UOp.ins 7, UOp.ins 7, UOp.rem 7]).1 :=
  ⟨(spec_C2.1 (BinaryTree.mk0.insert 7) (Reachable.insert Reachable.mk0)).1,
   spec_C2.2 [UOp.ins 7, UOp.ins 7, UOp.rem 7]⟩

/-- C3: `insert(n)` follows the standard BST descent (the model definition);
if `n` is already present the call is a no-op (same state, hence same size
and in-order sequence), otherwise exactly one node is added: the count and
the cached size increment by 1, the result is still sorted, and its values
are the old values plus `n`. -/
theorem spec_C3 (bt : BinaryTree) (n : Int) (h : BST bt.root) :
    (bt.root.contains n = true → bt.insert n = bt) ∧
    (bt.root.contains n = false →
      (bt.insert n).size = bt.size + 1 ∧
      (bt.insert n).root.count = bt.root.count + 1 ∧
      (bt.insert n).root.inorder.Sorted (· < ·) ∧
      ∀ y : Int,
        y ∈ (bt.insert n).root.inorder ↔ y ∈ bt.root.inorder ∨ y = n) := by
  constructor
  · intro hc
    simp [BinaryTree.insert, hc, Node.insert_of_contains hc]
  · intro hc
    refine ⟨by simp [BinaryTree.insert, hc], Node.count_insert hc,
      bst_iff_sorted.mp (h.insert n), fun y => Node.mem_inorder_insert⟩

/-- Witness for C3: inserting 5 into the empty tree. -/
theorem spec_C3_witness :
    (BinaryTree.mk0.insert 5).size = BinaryTree.mk0.size + 1 ∧
    (BinaryTree.mk0.insert 5).root.count = BinaryTree.mk0.root.count + 1 :=
  let h := (spec_C3 BinaryTree.mk0 5 BST.nil).2 (by decide)
  ⟨h.1, h.2.1⟩

/-- C4: `remove(n)` is a no-op when `n` is absent; when `n` is present the
node is excised (three-case rule of the model definition): the cached size
and the node count decrement by exactly 1, the in-order sequence is the old
one with `n` erased, and the BST invariant still holds. -/
theorem spec_C4 (bt : BinaryTree) (n : Int) (h : TreeInv bt) :
    (bt.root.contains n = false → bt.remove n = bt) ∧
    (bt.root.contains n = true →
      (bt.remove n).size + 1 = bt.size ∧
      (bt.remove n).root.count + 1 = bt.root.count ∧
      (bt.remove n).root.inorder = bt.root.inorder.erase n ∧
      BST (bt.remove n).root) := by
  constructor
  · intro hc
    simp [BinaryTree.remove, hc, Node.remove_of_not_contains hc]
  · intro hc
    have hpos := treeInv_size_pos h hc
    refine ⟨?_, Node.count_remove h.1 hc, Node.inorder_remove h.1 n,
      h.1.remove n⟩
    simp only [BinaryTree.remove, hc, if_true]
    omega

/-- Witness for C4: removing 5 from the tree holding (5, 3). -/
theorem spec_C4_witness :
    (((BinaryTree.mk0.insert 5).insert 3).remove 5).size + 1
        = ((BinaryTree.mk0.insert 5).insert 3).size ∧
    (((BinaryTree.mk0.insert 5).insert 3).remove 5).root.inorder
        = ((BinaryTree.mk0.insert 5).insert 3).root.inorder.erase 5 :=
  let h := (spec_C4 ((BinaryTree.mk0.insert 5).insert 3) 5
    (reachable_treeInv (Reachable.insert (Reachable.insert Reachable.mk0))))
    |>.2 (by decide)
  ⟨h.1, h.2.2.1⟩

/-- C5: no operation signals an error in ordinary usage — on the empty tree
`min`, `max` and `root` return the fallback 0, `contains` is false, `find`
returns the absent indicator, `empty()` is true and `size()` is 0; a
duplicate insert and a removal of an absent value are silent no-ops. -/
theorem spec_C5 :
    BinaryTree.mk0.min = 0 ∧ BinaryTree.mk0.max = 0 ∧
    BinaryTree.mk0.rootValue = 0 ∧
    (∀ n : Int, BinaryTree.mk0.contains n = false) ∧
    (∀ n : Int, BinaryTree.mk0.find n = none) ∧
    BinaryTree.mk0.empty = true ∧ BinaryTree.mk0.size = 0 ∧
    (∀ (bt : BinaryTree) (n : Int), bt.root.contains n = true →
      bt.insert n = bt) ∧
    (∀ (bt : BinaryTree) (n : Int), bt.root.contains n = false →
      bt.remove n = bt) := by
  refine ⟨rfl, rfl, rfl, fun n => rfl, fun n => rfl, rfl, rfl, ?_, ?_⟩
  · intro bt n hc
    simp [BinaryTree.insert, hc, Node.insert_of_contains hc]
  · intro bt n hc
    simp [BinaryTree.remove, hc, Node.remove_of_not_contains hc]

/-- Witness for C5: the empty-tree fallbacks at 42, a duplicate insert of 7
and a removal of the absent 3. -/
theorem spec_C5_witness :
    BinaryTree.mk0.contains 42 = false ∧ BinaryTree.mk0.find 42 = none ∧
    (BinaryTree.mk0.insert 7).insert 7 = BinaryTree.mk0.insert 7 ∧
    BinaryTree.mk0.remove 3 = BinaryTree.mk0 :=
  ⟨spec_C5.2.2.2.1 42, spec_C5.2.2.2.2.1 42,
   spec_C5.2.2.2.2.2.2.2.1 (BinaryTree.mk0.insert 7) 7 (by decide),
   spec_C5.2.2.2.2.2.2.2.2 BinaryTree.mk0 3 (by decide)⟩

/-- C6: on a non-empty tree `min()` returns the leftmost value, which is the
smallest value stored, and `max()` returns the rightmost value, which is the
largest value stored. -/
theorem spec_C6 (bt : BinaryTree) (hb : BST bt.root)
    (hne : bt.root ≠ .nil) :
    (bt.min ∈ bt.root.inorder ∧ ∀ y ∈ bt.root.inorder, bt.min ≤ y) ∧
    (bt.max ∈ bt.root.inorder ∧ ∀ y ∈ bt.root.inorder, y ≤ bt.max) :=
  ⟨Node.min_spec hb hne, Node.max_spec hb hne⟩

/-- Witness for C6 on the tree holding (5, 3): min 3 and max 5 are a member
and a bound of the stored values. -/
theorem spec_C6_witness :
    (((BinaryTree.mk0.insert 5).insert 3).min
        ∈ ((BinaryTree.mk0.insert 5).insert 3).root.inorder ∧
      ∀ y ∈ ((BinaryTree.mk0.insert 5).insert 3).root.inorder,
        ((BinaryTree.mk0.insert 5).insert 3).min ≤ y) ∧
    (((BinaryTree.mk0.insert 5).insert 3).max
        ∈ ((BinaryTree.mk0.insert 5).insert 3).root.inorder ∧
      ∀ y ∈ ((BinaryTree.mk0.insert 5).insert 3).root.inorder,
        y ≤ ((BinaryTree.mk0.insert 5).insert 3).max) :=
  spec_C6 ((BinaryTree.mk0.insert 5).insert 3)
    (bst_iff_sorted.mpr (by decide)) (by decide)

/-- C7: `contains(n)` is true immediately after `insert(n)`, and false
immediately after `remove(n)` provided `n` was present. -/
theorem spec_C7 (bt : BinaryTree) (n : Int) (h : BST bt.root) :
    (bt.insert n).contains n = true ∧
    (bt.root.contains n = true → (bt.remove n).contains n = false) := by
  constructor
  · exact Node.contains_insert_self bt.root n
  · intro _
    exact Node.contains_remove_self h n

/-- Witness for C7 after inserting 5 into the empty tree and removing it
again. -/
theorem spec_C7_witness :
    ((BinaryTree.mk0.insert 5).insert 5).contains 5 = true ∧
    ((BinaryTree.mk0.insert 5).root.contains 5 = true →
      ((BinaryTree.mk0.insert 5).remove 5).contains 5 = false) :=
  spec_C7 (BinaryTree.mk0.insert 5) 5 (bst_iff_sorted.mpr (by decide))

/-- C8: after move-constructing or move-assigning from a tree, the target
has the source's pre-move in-order sequence and size, and the source is the
valid empty state (root absent, count 0, `empty()` true), on which every
operation behaves as on a fresh empty tree (e.g. inserting works
normally). -/
theorem spec_C8 (bt : BinaryTree) :
    (bt.move.1.root.inorder = bt.root.inorder ∧ bt.move.1.size = bt.size) ∧
    (bt.move.2.root = .nil ∧ bt.move.2.size = 0 ∧
      bt.move.2.empty = true) ∧
    (∀ n : Int, bt.move.2.insert n = BinaryTree.mk0.insert n) ∧
    (∀ tgt : BinaryTree,
      (BinaryTree.moveAssign tgt bt).1.root.inorder = bt.root.inorder ∧
      (BinaryTree.moveAssign tgt bt).1.size = bt.size ∧
      (BinaryTree.moveAssign tgt bt).2 = BinaryTree.mk0) :=
  ⟨⟨rfl, rfl⟩, ⟨rfl, rfl, rfl⟩, fun _ => rfl, fun _ => ⟨rfl, rfl, rfl⟩⟩

/-- C9: the copy is a deep structural clone — stripping addresses it is the
same tree (same values, shape, in-order sequence and node count) while its
node addresses are fresh, hence disjoint from the source's (no shared
nodes); consequently, in the two-tree world (original, copy), mutating one
component leaves the other's in-order sequence unchanged; self copy
assignment leaves the tree unchanged. -/
theorem spec_C9 (t : ANode) (k : Nat) (h : ∀ a ∈ t.addrs, a < k) :
    ((t.clone k).1.strip = t.strip ∧
      (t.clone k).1.strip.inorder = t.strip.inorder ∧
      (t.clone k).1.strip.count = t.strip.count) ∧
    List.Disjoint ((t.clone k).1.addrs) t.addrs ∧
    (∀ bt : BinaryTree, BinaryTree.copyAssign bt bt = bt) ∧
    (∀ bt : BinaryTree, bt.copy = bt) ∧
    (∀ (bt : BinaryTree) (n : Int),
      (bt, bt.copy.insert n).1.root.inorder = bt.root.inorder ∧
      (bt, bt.copy.remove n).1.root.inorder = bt.root.inorder ∧
      (bt.insert n, bt.copy).2.root.inorder = bt.root.inorder ∧
      (bt.remove n, bt.copy).2.root.inorder = bt.root.inorder) := by
  refine ⟨⟨ANode.clone_strip t k, ?_, ?_⟩, ANode.clone_disjoint h,
    fun _ => rfl, fun _ => rfl, fun _ _ => ⟨rfl, rfl, rfl, rfl⟩⟩
  · rw [ANode.clone_strip t k]
  · rw [ANode.clone_strip t k]

/-- Witness for C9: cloning the one-node tree at address 0 with the
allocator counter at 1 yields an equal tree on disjoint addresses. -/
theorem spec_C9_witness :
    ((ANode.node 0 5 ANode.nil ANode.nil).clone 1).1.strip
        = (ANode.node 0 5 ANode.nil ANode.nil).strip ∧
    List.Disjoint (((ANode.node 0 5 ANode.nil ANode.nil).clone 1).1.addrs)
      (ANode.node 0 5 ANode.nil ANode.nil).addrs :=
  let h := spec_C9 (ANode.node 0 5 ANode.nil ANode.nil) 1 (by decide)
  ⟨h.1.1, h.2.1⟩

/-- C10: the two lookups agree on every tree state — `contains(n)` is true
exactly when `find(n)` returns a node, and the returned node holds `n`. -/
theorem spec_C10 (bt : BinaryTree) (n : Int) :
    (bt.contains n = true ↔ (bt.find n).isSome = true) ∧
    ∀ u : Node, bt.find n = some u → ∃ l r, u = Node.node n l r := by
  constructor
  · rw [show bt.contains n = bt.root.contains n from rfl,
      Node.contains_eq_find_isSome]
    exact Iff.rfl
  · intro u hu
    exact Node.find_eq_node hu

/-- Witness for C10: on the tree holding 5, `find(5)` returns the node whose
element is 5. -/
theorem spec_C10_witness :
    ∃ l r, Node.node 5 Node.nil Node.nil = Node.node 5 l r :=
  (spec_C10 (BinaryTree.mk0.insert 5) 5).2 (Node.node 5 Node.nil Node.nil)
    (by decide)
